import Mathlib

/-!
Shallow embedding of the contour-extraction and polygon-containment core of
`gcoordinator-lite` (files `gcoordinator/utils/contour.py` and
`gcoordinator/utils/polygon.py`).

Real numbers of the source are modelled by `ℚ`; grid samples, which may be
NaN in the source, are modelled by the type `Val` (`Val.nan` behaves like a
NaN under `>=`, i.e. every comparison with it is false, as in numpy).
Imperative loops of the source are modelled by explicit state passing; the
`while True` extension loop of `_connect_segments_fast` takes an explicit
fuel argument that is instantiated with the number of still-unused segments,
which is an upper bound on the number of iterations the Python loop can
perform (each iteration that does not exit marks one unused segment used);
fuel-irrelevance is proved below, so the fuel never truncates the loop.
Python's `round` rounds half to even while Mathlib's `round` rounds half up;
the two differ only when a coordinate divided by the tolerance is exactly a
half-integer, which is immaterial to every property proved here.
-/

/-- A 2D point, as the source's pair of floats. -/
abbrev Point := ℚ × ℚ

/-- A line segment: an ordered pair of points. -/
abbrev Seg := Point × Point

/-- Default point used for out-of-range list access. -/
def dP : Point := (0, 0)

/-- Default segment used for out-of-range list access. -/
def dSeg : Seg := (dP, dP)

/-- A grid sample: either a finite value or NaN. -/
inductive Val where
  | nan : Val
  | num (q : ℚ) : Val
deriving DecidableEq

/-- `v >= level` as numpy evaluates it: false whenever `v` is NaN. -/
def vge (v : Val) (level : ℚ) : Bool :=
  match v with
  | .nan => false
  | .num q => decide (level ≤ q)

/-- `np.isnan`. -/
def isnanV (v : Val) : Bool :=
  match v with
  | .nan => true
  | .num _ => false

/-- The finite value of a sample (only used on non-NaN samples). -/
def getQ (v : Val) : ℚ :=
  match v with
  | .nan => 0
  | .num q => q

/-! ### polygon.py -/

/-- One coordinate of `np.allclose` with its default `rtol = 1e-5`,
`atol = 1e-8`: `|a - b| <= atol + rtol * |b|`. -/
def allcloseQ (a b : ℚ) : Bool :=
  decide (|a - b| ≤ 1 / 10 ^ 8 + 1 / 10 ^ 5 * |b|)

/-- `np.allclose` on a pair of 2D points. -/
def allcloseP (p q : Point) : Bool :=
  allcloseQ p.1 q.1 && allcloseQ p.2 q.2

/-- `polygon = np.vstack([polygon, polygon[0]])` unless the polygon is
already closed in the sense of `np.allclose(polygon[0], polygon[-1])`. -/
def closePolygon (polygon : List Point) : List Point :=
  if allcloseP (polygon.headD dP) (polygon.getLastD dP) then polygon
  else polygon ++ [polygon.headD dP]

/-- The edge list `zip(polygon[:-1], polygon[1:])` of the closed polygon. -/
def polyEdges (polygon : List Point) : List (Point × Point) :=
  (closePolygon polygon).zip (closePolygon polygon).tail

/-- The per-point, per-edge crossing test of `points_in_polygon`:
`cond1 = (y1 > py) != (y2 > py)`, the x-intersection computed with the
denominator `dy` replaced by 1 when zero, `cond2 = px < x_intersect`, and
the horizontal-edge mask `non_horizontal = (y1 != y2)`. -/
def crossingB (p : Point) (e : Point × Point) : Bool :=
  let px := p.1
  let py := p.2
  let x1 := e.1.1
  let y1 := e.1.2
  let x2 := e.2.1
  let y2 := e.2.2
  let cond1 := decide (y1 > py) != decide (y2 > py)
  let dy := y2 - y1
  let dy' := if dy = 0 then 1 else dy
  let xint := x1 + (py - y1) * (x2 - x1) / dy'
  let cond2 := decide (px < xint)
  let nonH := decide (y1 ≠ y2)
  cond1 && cond2 && nonH

/-- `points_in_polygon`: fewer than 3 vertices classifies everything as
outside; otherwise a point is inside iff its crossing count over the edges
of the closed polygon is odd. -/
def points_in_polygon (points polygon : List Point) : List Bool :=
  if polygon.length < 3 then points.map (fun _ => false)
  else points.map (fun p => decide ((polyEdges polygon).countP (crossingB p) % 2 = 1))

/-- The crossing rule as the specification states it: the edge's two
y-coordinates strictly straddle the point's y, and the x-intersection
`x1 + (py - y1) * (x2 - x1) / (y2 - y1)` is strictly greater than `px`;
horizontal edges never contribute (their y-coordinates cannot straddle). -/
def specCrossingB (p : Point) (e : Point × Point) : Bool :=
  let px := p.1
  let py := p.2
  let x1 := e.1.1
  let y1 := e.1.2
  let x2 := e.2.1
  let y2 := e.2.2
  (decide (y1 > py) != decide (y2 > py)) &&
    decide (px < x1 + (py - y1) * (x2 - x1) / (y2 - y1))

/-! ### contour.py : marching squares -/

/-- The marching-squares lookup table `_EDGE_TABLE`: case index to the list
of edge pairs to connect (edges: 0=bottom, 1=right, 2=top, 3=left). -/
def _EDGE_TABLE (c : ℕ) : List (ℕ × ℕ) :=
  match c with
  | 0 => []
  | 1 => [(3, 0)]
  | 2 => [(0, 1)]
  | 3 => [(3, 1)]
  | 4 => [(1, 2)]
  | 5 => [(3, 0), (1, 2)]
  | 6 => [(0, 2)]
  | 7 => [(3, 2)]
  | 8 => [(2, 3)]
  | 9 => [(2, 0)]
  | 10 => [(0, 1), (2, 3)]
  | 11 => [(2, 1)]
  | 12 => [(1, 3)]
  | 13 => [(1, 0)]
  | 14 => [(0, 3)]
  | _ => []

/-- Number of grid rows, `z.shape[0]`. -/
def nyOf (z : List (List Val)) : ℕ := z.length

/-- Number of grid columns, `z.shape[1]`. -/
def nxOf (z : List (List Val)) : ℕ := (z.headD []).length

/-- Grid sample `z[i][j]`. -/
def getV (z : List (List Val)) (i j : ℕ) : Val :=
  (z.getD i []).getD j .nan

/-- A cell is valid when none of its four corner samples is NaN
(`valid = ~(isnan(z00) | isnan(z01) | isnan(z11) | isnan(z10))`). -/
def validCell (z : List (List Val)) (i j : ℕ) : Bool :=
  !isnanV (getV z i j) && !isnanV (getV z i (j + 1)) &&
    !isnanV (getV z (i + 1) (j + 1)) && !isnanV (getV z (i + 1) j)

/-- `1` for true, `0` for false, as `.astype(np.int32)`. -/
def b2n (b : Bool) : ℕ := cond b 1 0

/-- The 4-bit case index of cell `(i, j)`:
`above0 + 2*above1 + 4*above2 + 8*above3` with corner 0 = bottom-left
`z[i][j]`, corner 1 = bottom-right `z[i][j+1]`, corner 2 = top-right
`z[i+1][j+1]`, corner 3 = top-left `z[i+1][j]`. -/
def caseIndexAt (z : List (List Val)) (level : ℚ) (i j : ℕ) : ℕ :=
  b2n (vge (getV z i j) level) + 2 * b2n (vge (getV z i (j + 1)) level) +
    4 * b2n (vge (getV z (i + 1) (j + 1)) level) + 8 * b2n (vge (getV z (i + 1) j) level)

/-- All cells `(i, j)`, `i < ny - 1`, `j < nx - 1`, in row-major order
(the flattening order of the numpy masks). -/
def cellList (ny nx : ℕ) : List (ℕ × ℕ) :=
  (List.range (ny - 1)).flatMap fun i => (List.range (nx - 1)).map fun j => (i, j)

/-- The row-major list of valid cells whose case index is `c`
(the cells selected by `mask = (case_index == case) & valid`). -/
def cellsOfCase (ny nx : ℕ) (z : List (List Val)) (level : ℚ) (c : ℕ) : List (ℕ × ℕ) :=
  (cellList ny nx).filter fun ij =>
    validCell z ij.1 ij.2 && (caseIndexAt z level ij.1 ij.2 == c)

/-- The four corner values `(v0, v1, v2, v3)` of cell `(i, j)` as finite
rationals (only used on valid cells). -/
def cornerVals (z : List (List Val)) (i j : ℕ) : ℚ × ℚ × ℚ × ℚ :=
  (getQ (getV z i j), getQ (getV z i (j + 1)),
    getQ (getV z (i + 1) (j + 1)), getQ (getV z (i + 1) j))

/-- The shared tail of `interp_edge`: from the selected corner values and
edge endpoint coordinates, compute the crossing point
(`t = (level - va) / dv` unless `|dv| < 1e-10`, in which case `t = 1/2`). -/
def interpFrom (level va vb xa xb ya yb : ℚ) : Point :=
  let dv := vb - va
  let t := if |dv| < 1 / 10 ^ 10 then 1 / 2 else (level - va) / dv
  (xa + t * (xb - xa), ya + t * (yb - ya))

/-- `interp_edge`: the level crossing on edge `e` of cell `(i, j)`.
Edge 0 (bottom) runs from corner 0 to 1, edge 1 (right) from 1 to 2,
edge 2 (top) from 2 to 3, edge 3 (left) from 3 to 0. -/
def interpEdge (x y : List ℚ) (level v0 v1 v2 v3 : ℚ) (i j e : ℕ) : Point :=
  let xj := x.getD j 0
  let xj1 := x.getD (j + 1) 0
  let yi := y.getD i 0
  let yi1 := y.getD (i + 1) 0
  if e = 0 then interpFrom level v0 v1 xj xj1 yi yi
  else if e = 1 then interpFrom level v1 v2 xj1 xj1 yi yi1
  else if e = 2 then interpFrom level v2 v3 xj1 xj yi1 yi1
  else interpFrom level v3 v0 xj xj yi1 yi

/-- All segments collected by `find_contours`, in the source's order:
cases 1..14 in increasing order, for each case the edge pairs of the table
in order, for each pair the matching cells in row-major order. -/
def allSegments (x y : List ℚ) (z : List (List Val)) (level : ℚ) : List Seg :=
  (List.range' 1 14).flatMap fun c =>
    (_EDGE_TABLE c).flatMap fun pr =>
      (cellsOfCase (nyOf z) (nxOf z) z level c).map fun ij =>
        match cornerVals z ij.1 ij.2 with
        | (v0, v1, v2, v3) =>
          (interpEdge x y level v0 v1 v2 v3 ij.1 ij.2 pr.1,
            interpEdge x y level v0 v1 v2 v3 ij.1 ij.2 pr.2)

/-! ### contour.py : segment stitching (`_connect_segments_fast`) -/

/-- `quantize`: round each coordinate divided by the tolerance. -/
def quantize (tol : ℚ) (p : Point) : ℤ × ℤ :=
  (round (p.1 / tol), round (p.2 / tol))

/-- The adjacency bucket of key `q`: the entries `(seg_idx, endpoint_idx)`
in the insertion order of the Python `defaultdict` build loop
(`endpoint_idx = false` means `p0` is the connection point). -/
def adjacency (tol : ℚ) (segs : List Seg) (q : ℤ × ℤ) : List (ℕ × Bool) :=
  (List.range segs.length).flatMap fun i =>
    let s := segs.getD i dSeg
    (if quantize tol s.1 = q then [(i, false)] else []) ++
      (if quantize tol s.2 = q then [(i, true)] else [])

/-- Scan an adjacency bucket for the first entry whose segment is unused
(`if used[seg_idx]: continue`). -/
def firstUnused (used : List Bool) : List (ℕ × Bool) → Option (ℕ × Bool)
  | [] => none
  | (i, e) :: rest => if used.getD i true then firstUnused used rest else some (i, e)

/-- The `while True` extension loop of `_connect_segments_fast`, for one
direction (`dir = true` extends from the end of the path, `dir = false`
from the start).  The fuel argument bounds the iteration count; it is
instantiated with the number of unused segments, which the loop can never
exceed, and fuel-irrelevance is proved below. -/
def extendDir (tol : ℚ) (segs : List Seg) (dir : Bool) :
    ℕ → List Bool → List Point → List Bool × List Point
  | 0, used, path => (used, path)
  | fuel + 1, used, path =>
    let endPt := if dir then path.getLastD dP else path.headD dP
    match firstUnused used (adjacency tol segs (quantize tol endPt)) with
    | none => (used, path)
    | some (i, e) =>
      let s := segs.getD i dSeg
      let newPt := if e then s.1 else s.2
      extendDir tol segs dir fuel (used.set i true)
        (if dir then path ++ [newPt] else newPt :: path)

/-- `cf used` counts the unused segments (the `False` entries). -/
def cf (used : List Bool) : ℕ := used.countP fun b => !b

/-- The outer loop of `_connect_segments_fast` over `start_idx`, threading
the `used` array and accumulating the finished paths. -/
def connectLoop (tol : ℚ) (segs : List Seg) :
    List ℕ → List Bool → List Bool × List (List Point)
  | [], used => (used, [])
  | start :: rest, used =>
    if used.getD start true then connectLoop tol segs rest used
    else
      let used1 := used.set start true
      let s := segs.getD start dSeg
      let r1 := extendDir tol segs true (cf used1) used1 [s.1, s.2]
      let r2 := extendDir tol segs false (cf r1.1) r1.1 r1.2
      let r3 := connectLoop tol segs rest r2.1
      (r3.1, r2.2 :: r3.2)

/-- `_connect_segments_fast`: stitch segments into maximal paths. -/
def _connect_segments_fast (segs : List Seg) (tol : ℚ) : List (List Point) :=
  if segs.isEmpty then []
  else (connectLoop tol segs (List.range segs.length) (List.replicate segs.length false)).2

/-- `find_contours`: shape check, degenerate-grid check, then marching
squares followed by stitching with the default tolerance `1e-8`. -/
def find_contours (x y : List ℚ) (z : List (List Val)) (level : ℚ) :
    Except String (List (List Point)) :=
  if x.length ≠ nxOf z ∨ y.length ≠ nyOf z then .error ("Shape mismatch")
  else if nyOf z < 2 ∨ nxOf z < 2 then .ok []
  else .ok (_connect_segments_fast (allSegments x y z level) (1 / 10 ^ 8))

/-! ### Lemmas about the `used` array -/

theorem getD_true_of_cf_zero (l : List Bool) (i : ℕ) (h : cf l = 0) :
    l.getD i true = true := by
  induction l generalizing i with
  | nil => simp
  | cons b t ih =>
    cases b
    · exfalso
      simp [cf, List.countP_cons] at h
    · cases i with
      | zero => simp
      | succ n =>
        simp only [List.getD_cons_succ]
        refine ih n ?_
        simpa [cf, List.countP_cons] using h

theorem cf_pos_of_getD_false (l : List Bool) (i : ℕ) (h : l.getD i true = false) :
    0 < cf l := by
  by_contra hc
  have h0 : cf l = 0 := by omega
  rw [getD_true_of_cf_zero l i h0] at h
  simp at h

theorem cf_set_true (l : List Bool) (i : ℕ) (h : l.getD i true = false) :
    cf (l.set i true) + 1 = cf l := by
  induction l generalizing i with
  | nil => simp at h
  | cons b t ih =>
    cases i with
    | zero =>
      simp only [List.getD_cons_zero] at h
      subst h
      simp [cf, List.countP_cons]
    | succ n =>
      simp only [List.getD_cons_succ] at h
      simp only [List.set_cons_succ, cf, List.countP_cons]
      have := ih n h
      simp only [cf] at this
      omega

theorem cf_set_le (l : List Bool) (i : ℕ) : cf (l.set i true) ≤ cf l := by
  induction l generalizing i with
  | nil => simp
  | cons b t ih =>
    cases i with
    | zero => cases b <;> simp [cf, List.countP_cons]
    | succ n =>
      simp only [List.set_cons_succ, cf, List.countP_cons]
      have := ih n
      simp only [cf] at this
      omega

theorem getD_set_true_self (l : List Bool) (i : ℕ) : (l.set i true).getD i true = true := by
  induction l generalizing i with
  | nil => simp
  | cons b t ih =>
    cases i with
    | zero => simp
    | succ n => simpa using ih n

theorem getD_set_true_mono (l : List Bool) (i j : ℕ) (h : l.getD j true = true) :
    (l.set i true).getD j true = true := by
  induction l generalizing i j with
  | nil => simp
  | cons b t ih =>
    cases i with
    | zero =>
      cases j with
      | zero => simp
      | succ m => simpa using h
    | succ n =>
      cases j with
      | zero => simpa using h
      | succ m =>
        simp only [List.set_cons_succ, List.getD_cons_succ] at h ⊢
        exact ih n m h

theorem cf_eq_zero_of_all_true (l : List Bool)
    (h : ∀ i, i < l.length → l.getD i true = true) : cf l = 0 := by
  induction l with
  | nil => rfl
  | cons b t ih =>
    have hb : b = true := by simpa using h 0 (by simp)
    subst hb
    have ht : cf t = 0 := by
      refine ih fun i hi => ?_
      simpa using h (i + 1) (by simpa using hi)
    simp [cf, List.countP_cons] at ht ⊢
    exact ht

theorem cf_replicate_false (n : ℕ) : cf (List.replicate n false) = n := by
  induction n with
  | zero => rfl
  | succ m ih => simp [List.replicate_succ, cf, List.countP_cons] at ih ⊢; omega

/-! ### Lemmas about `firstUnused` -/

theorem firstUnused_eq_some (used : List Bool) (l : List (ℕ × Bool)) (i : ℕ) (e : Bool)
    (h : firstUnused used l = some (i, e)) : used.getD i true = false := by
  induction l with
  | nil => simp [firstUnused] at h
  | cons a rest ih =>
    obtain ⟨ia, ea⟩ := a
    by_cases hu : used.getD ia true = true
    · rw [firstUnused, if_pos hu] at h
      exact ih h
    · rw [firstUnused, if_neg hu] at h
      obtain ⟨h1, _⟩ := Prod.mk.injEq .. ▸ Option.some.injEq .. ▸ h
      have h1 : ia = i := by
        have := Option.some.inj h
        exact congrArg Prod.fst this
      subst h1
      exact Bool.not_eq_true _ ▸ eq_false_of_ne_true hu

theorem firstUnused_eq_none_of_cf_zero (used : List Bool) (l : List (ℕ × Bool))
    (h : cf used = 0) : firstUnused used l = none := by
  induction l with
  | nil => rfl
  | cons a rest ih =>
    obtain ⟨ia, ea⟩ := a
    rw [firstUnused, if_pos (getD_true_of_cf_zero used ia h)]
    exact ih

/-! ### Lemmas about `extendDir` -/

theorem extendDir_conserve (tol : ℚ) (segs : List Seg) (dir : Bool) (fuel : ℕ) :
    ∀ (used : List Bool) (path : List Point),
      (extendDir tol segs dir fuel used path).2.length
          + cf (extendDir tol segs dir fuel used path).1
        = path.length + cf used := by
  induction fuel with
  | zero => intro used path; rfl
  | succ n ih =>
    intro used path
    simp only [extendDir]
    cases hfu : firstUnused used (adjacency tol segs
        (quantize tol (if dir then path.getLastD dP else path.headD dP))) with
    | none => rfl
    | some ie =>
      obtain ⟨i, e⟩ := ie
      have hfalse := firstUnused_eq_some used _ i e hfu
      have hcf := cf_set_true used i hfalse
      have hrec := ih (used.set i true)
        (if dir then path ++ [if e then (segs.getD i dSeg).1 else (segs.getD i dSeg).2]
         else (if e then (segs.getD i dSeg).1 else (segs.getD i dSeg).2) :: path)
      cases dir <;> simp only [if_true, if_false, Bool.false_eq_true, ite_true, ite_false] at hrec ⊢ <;>
        rw [hrec] <;> simp [List.length_append] <;> omega

theorem extendDir_cf_le (tol : ℚ) (segs : List Seg) (dir : Bool) (fuel : ℕ) :
    ∀ (used : List Bool) (path : List Point),
      cf (extendDir tol segs dir fuel used path).1 ≤ cf used := by
  induction fuel with
  | zero => intro used path; exact le_refl _
  | succ n ih =>
    intro used path
    simp only [extendDir]
    cases hfu : firstUnused used (adjacency tol segs
        (quantize tol (if dir then path.getLastD dP else path.headD dP))) with
    | none => exact le_refl _
    | some ie =>
      obtain ⟨i, e⟩ := ie
      exact le_trans (ih (used.set i true) _) (cf_set_le used i)

theorem extendDir_used_mono (tol : ℚ) (segs : List Seg) (dir : Bool) (fuel : ℕ) :
    ∀ (used : List Bool) (path : List Point) (j : ℕ),
      used.getD j true = true →
      (extendDir tol segs dir fuel used path).1.getD j true = true := by
  induction fuel with
  | zero => intro used path j h; exact h
  | succ n ih =>
    intro used path j h
    simp only [extendDir]
    cases hfu : firstUnused used (adjacency tol segs
        (quantize tol (if dir then path.getLastD dP else path.headD dP))) with
    | none => exact h
    | some ie =>
      obtain ⟨i, e⟩ := ie
      exact ih (used.set i true) _ j (getD_set_true_mono used i j h)

theorem extendDir_length_used (tol : ℚ) (segs : List Seg) (dir : Bool) (fuel : ℕ) :
    ∀ (used : List Bool) (path : List Point),
      (extendDir tol segs dir fuel used path).1.length = used.length := by
  induction fuel with
  | zero => intro used path; rfl
  | succ n ih =>
    intro used path
    simp only [extendDir]
    cases hfu : firstUnused used (adjacency tol segs
        (quantize tol (if dir then path.getLastD dP else path.headD dP))) with
    | none => rfl
    | some ie =>
      obtain ⟨i, e⟩ := ie
      rw [ih (used.set i true) _, List.length_set]

theorem extendDir_path_grows (tol : ℚ) (segs : List Seg) (dir : Bool) (fuel : ℕ)
    (used : List Bool) (path : List Point) :
    path.length ≤ (extendDir tol segs dir fuel used path).2.length := by
  have h := extendDir_conserve tol segs dir fuel used path
  have h2 := extendDir_cf_le tol segs dir fuel used path
  omega

theorem extendDir_fuel_irrelevant (tol : ℚ) (segs : List Seg) (dir : Bool) :
    ∀ (f1 f2 : ℕ) (used : List Bool) (path : List Point),
      cf used ≤ f1 → cf used ≤ f2 →
      extendDir tol segs dir f1 used path = extendDir tol segs dir f2 used path := by
  intro f1
  induction f1 with
  | zero =>
    intro f2 used path h1 h2
    have h0 : cf used = 0 := by omega
    cases f2 with
    | zero => rfl
    | succ m =>
      simp only [extendDir]
      rw [firstUnused_eq_none_of_cf_zero used _ h0]
  | succ n ih =>
    intro f2 used path h1 h2
    cases f2 with
    | zero =>
      have h0 : cf used = 0 := by omega
      simp only [extendDir]
      rw [firstUnused_eq_none_of_cf_zero used _ h0]
    | succ m =>
      simp only [extendDir]
      cases hfu : firstUnused used (adjacency tol segs
          (quantize tol (if dir then path.getLastD dP else path.headD dP))) with
      | none => rfl
      | some ie =>
        obtain ⟨i, e⟩ := ie
        have hfalse := firstUnused_eq_some used _ i e hfu
        have hcf := cf_set_true used i hfalse
        exact ih m (used.set i true) _ (by omega) (by omega)

/-! ### Lemmas about `connectLoop` -/

theorem connectLoop_conserve (tol : ℚ) (segs : List Seg) :
    ∀ (idxs : List ℕ) (used : List Bool),
      ((connectLoop tol segs idxs used).2.map List.length).sum
          + cf (connectLoop tol segs idxs used).1
        = cf used + (connectLoop tol segs idxs used).2.length := by
  intro idxs
  induction idxs with
  | nil => intro used; simp [connectLoop]
  | cons start rest ih =>
    intro used
    cases hh : used.getD start true with
    | true =>
      simp only [connectLoop, hh, if_true]
      exact ih used
    | false =>
      simp only [connectLoop, hh, Bool.false_eq_true, if_false, List.map_cons,
        List.sum_cons, List.length_cons]
      have h4 := cf_set_true used start hh
      have h1 := extendDir_conserve tol segs true (cf (used.set start true))
        (used.set start true) [(segs.getD start dSeg).1, (segs.getD start dSeg).2]
      simp only [List.length_cons, List.length_nil] at h1
      have h2 := extendDir_conserve tol segs false
        (cf (extendDir tol segs true (cf (used.set start true)) (used.set start true)
          [(segs.getD start dSeg).1, (segs.getD start dSeg).2]).1)
        (extendDir tol segs true (cf (used.set start true)) (used.set start true)
          [(segs.getD start dSeg).1, (segs.getD start dSeg).2]).1
        (extendDir tol segs true (cf (used.set start true)) (used.set start true)
          [(segs.getD start dSeg).1, (segs.getD start dSeg).2]).2
      have h3 := ih (extendDir tol segs false
        (cf (extendDir tol segs true (cf (used.set start true)) (used.set start true)
          [(segs.getD start dSeg).1, (segs.getD start dSeg).2]).1)
        (extendDir tol segs true (cf (used.set start true)) (used.set start true)
          [(segs.getD start dSeg).1, (segs.getD start dSeg).2]).1
        (extendDir tol segs true (cf (used.set start true)) (used.set start true)
          [(segs.getD start dSeg).1, (segs.getD start dSeg).2]).2).1
      omega

theorem connectLoop_used_mono (tol : ℚ) (segs : List Seg) :
    ∀ (idxs : List ℕ) (used : List Bool) (j : ℕ),
      used.getD j true = true →
      (connectLoop tol segs idxs used).1.getD j true = true := by
  intro idxs
  induction idxs with
  | nil => intro used j h; exact h
  | cons start rest ih =>
    intro used j h
    cases hh : used.getD start true with
    | true =>
      simp only [connectLoop, hh, if_true]
      exact ih used j h
    | false =>
      simp only [connectLoop, hh, Bool.false_eq_true, if_false]
      exact ih _ j (extendDir_used_mono tol segs false _ _ _ j
        (extendDir_used_mono tol segs true _ _ _ j (getD_set_true_mono used start j h)))

theorem connectLoop_marks_all (tol : ℚ) (segs : List Seg) :
    ∀ (idxs : List ℕ) (used : List Bool) (i : ℕ), i ∈ idxs →
      (connectLoop tol segs idxs used).1.getD i true = true := by
  intro idxs
  induction idxs with
  | nil => intro used i h; simp at h
  | cons start rest ih =>
    intro used i h
    rcases List.mem_cons.mp h with heq | hmem
    · subst heq
      cases hh : used.getD i true with
      | true =>
        simp only [connectLoop, hh, if_true]
        exact connectLoop_used_mono tol segs rest used i hh
      | false =>
        simp only [connectLoop, hh, Bool.false_eq_true, if_false]
        exact connectLoop_used_mono tol segs rest _ i
          (extendDir_used_mono tol segs false _ _ _ i
            (extendDir_used_mono tol segs true _ _ _ i (getD_set_true_self used i)))
    · cases hh : used.getD start true with
      | true =>
        simp only [connectLoop, hh, if_true]
        exact ih used i hmem
      | false =>
        simp only [connectLoop, hh, Bool.false_eq_true, if_false]
        exact ih _ i hmem

theorem connectLoop_length_used (tol : ℚ) (segs : List Seg) :
    ∀ (idxs : List ℕ) (used : List Bool),
      (connectLoop tol segs idxs used).1.length = used.length := by
  intro idxs
  induction idxs with
  | nil => intro used; rfl
  | cons start rest ih =>
    intro used
    cases hh : used.getD start true with
    | true =>
      simp only [connectLoop, hh, if_true]
      exact ih used
    | false =>
      simp only [connectLoop, hh, Bool.false_eq_true, if_false]
      rw [ih _, extendDir_length_used, extendDir_length_used, List.length_set]

theorem connectLoop_path_min2 (tol : ℚ) (segs : List Seg) :
    ∀ (idxs : List ℕ) (used : List Bool) (p : List Point),
      p ∈ (connectLoop tol segs idxs used).2 → 2 ≤ p.length := by
  intro idxs
  induction idxs with
  | nil => intro used p h; simp [connectLoop] at h
  | cons start rest ih =>
    intro used p h
    cases hh : used.getD start true with
    | true =>
      simp only [connectLoop, hh, if_true] at h
      exact ih used p h
    | false =>
      simp only [connectLoop, hh, Bool.false_eq_true, if_false] at h
      rcases List.mem_cons.mp h with heq | hmem
      · subst heq
        have hg1 := extendDir_path_grows tol segs true (cf (used.set start true))
          (used.set start true) [(segs.getD start dSeg).1, (segs.getD start dSeg).2]
        have hg2 := extendDir_path_grows tol segs false
          (cf (extendDir tol segs true (cf (used.set start true)) (used.set start true)
            [(segs.getD start dSeg).1, (segs.getD start dSeg).2]).1)
          (extendDir tol segs true (cf (used.set start true)) (used.set start true)
            [(segs.getD start dSeg).1, (segs.getD start dSeg).2]).1
          (extendDir tol segs true (cf (used.set start true)) (used.set start true)
            [(segs.getD start dSeg).1, (segs.getD start dSeg).2]).2
        simp only [List.length_cons, List.length_nil] at hg1
        omega
      · exact ih _ p hmem

/-! ### Remaining helper lemmas for the stitching claims -/

theorem eq_replicate_true_of_all (l : List Bool)
    (h : ∀ i, i < l.length → l.getD i true = true) :
    l = List.replicate l.length true := by
  induction l with
  | nil => rfl
  | cons b t ih =>
    have hb : b = true := by simpa using h 0 (by simp)
    subst hb
    rw [List.length_cons, List.replicate_succ]
    congr 1
    exact ih fun i hi => by simpa using h (i + 1) (by simpa using hi)

theorem sum_len_sub_two (paths : List (List Point))
    (h : ∀ p ∈ paths, 2 ≤ p.length) :
    (paths.map (fun p => p.length - 2)).sum + 2 * paths.length
      = (paths.map List.length).sum := by
  induction paths with
  | nil => rfl
  | cons p t ih =>
    simp only [List.map_cons, List.sum_cons, List.length_cons]
    have hp := h p (List.mem_cons_self p t)
    have ht := ih fun q hq => h q (List.mem_cons_of_mem p hq)
    omega

theorem connect_final_cf_zero (tol : ℚ) (segs : List Seg) :
    cf (connectLoop tol segs (List.range segs.length)
      (List.replicate segs.length false)).1 = 0 := by
  apply cf_eq_zero_of_all_true
  intro i hi
  rw [connectLoop_length_used, List.length_replicate] at hi
  exact connectLoop_marks_all tol segs _ _ i (List.mem_range.mpr hi)

theorem connect_sum_eq (tol : ℚ) (segs : List Seg) :
    ((_connect_segments_fast segs tol).map List.length).sum
      = segs.length + (_connect_segments_fast segs tol).length := by
  by_cases hs : segs.isEmpty
  · rw [_connect_segments_fast, if_pos hs]
    have : segs = [] := List.isEmpty_iff.mp hs
    subst this
    rfl
  · rw [_connect_segments_fast, if_neg hs]
    have h := connectLoop_conserve tol segs (List.range segs.length)
      (List.replicate segs.length false)
    rw [connect_final_cf_zero tol segs, cf_replicate_false] at h
    omega

/-- Claim C1: `_connect_segments_fast` drops and duplicates no segment:
the first path consumes one segment to seed its two initial points and every
extension step consumes exactly one further segment for one further point,
so the total number of points across all returned paths equals the number of
segments plus the number of paths; moreover at the end of the call every
segment is marked used. -/
theorem C1_segment_conservation (segs : List Seg) (tol : ℚ) :
    ((_connect_segments_fast segs tol).map List.length).sum
        = segs.length + (_connect_segments_fast segs tol).length
    ∧ (connectLoop tol segs (List.range segs.length)
        (List.replicate segs.length false)).1
      = List.replicate segs.length true := by
  refine ⟨connect_sum_eq tol segs, ?_⟩
  have hlen : (connectLoop tol segs (List.range segs.length)
      (List.replicate segs.length false)).1.length = segs.length := by
    rw [connectLoop_length_used, List.length_replicate]
  have hall := eq_replicate_true_of_all
    (connectLoop tol segs (List.range segs.length) (List.replicate segs.length false)).1
    (fun i hi => connectLoop_marks_all tol segs _ _ i
      (List.mem_range.mpr (hlen ▸ hi)))
  rw [hlen] at hall
  exact hall

/-- Claim C9: the extension loop of `_connect_segments_fast` terminates.
Any fuel at least the number of unused segments gives the same result as
fuel exactly that number (so the unbounded `while True` loop exits within
that many iterations); each iteration that extends the path marks exactly
one previously unused segment as used (the path length plus the unused
count is invariant and the unused count never grows); and the total number
of extension steps over the whole call, measured as points added beyond the
two seed points of each path, is bounded by the number of segments. -/
theorem C9_termination (tol : ℚ) (segs : List Seg) :
    (∀ (dir : Bool) (fuel : ℕ) (used : List Bool) (path : List Point),
        cf used ≤ fuel →
        extendDir tol segs dir fuel used path
          = extendDir tol segs dir (cf used) used path)
    ∧ (∀ (dir : Bool) (fuel : ℕ) (used : List Bool) (path : List Point),
        (extendDir tol segs dir fuel used path).2.length
            + cf (extendDir tol segs dir fuel used path).1
          = path.length + cf used
        ∧ cf (extendDir tol segs dir fuel used path).1 ≤ cf used)
    ∧ ((_connect_segments_fast segs tol).map (fun p => p.length - 2)).sum
        ≤ segs.length := by
  refine ⟨?_, ?_, ?_⟩
  · intro dir fuel used path hf
    exact extendDir_fuel_irrelevant tol segs dir fuel (cf used) used path hf (le_refl _)
  · intro dir fuel used path
    exact ⟨extendDir_conserve tol segs dir fuel used path,
      extendDir_cf_le tol segs dir fuel used path⟩
  · have hsum := connect_sum_eq tol segs
    have hmin : ∀ p ∈ _connect_segments_fast segs tol, 2 ≤ p.length := by
      intro p hp
      by_cases hs : segs.isEmpty
      · rw [_connect_segments_fast, if_pos hs] at hp
        simp at hp
      · rw [_connect_segments_fast, if_neg hs] at hp
        exact connectLoop_path_min2 tol segs _ _ p hp
    have h2 := sum_len_sub_two (_connect_segments_fast segs tol) hmin
    omega

/-- Claim C10: every polyline returned by `_connect_segments_fast` (hence by
`find_contours`) contains at least two points: a path starts from both
endpoints of its seed segment and extension only appends points. -/
theorem C10_paths_have_two_points (segs : List Seg) (tol : ℚ) (p : List Point)
    (h : p ∈ _connect_segments_fast segs tol) : 2 ≤ p.length := by
  by_cases hs : segs.isEmpty
  · rw [_connect_segments_fast, if_pos hs] at h
    simp at h
  · rw [_connect_segments_fast, if_neg hs] at h
    exact connectLoop_path_min2 tol segs _ _ p h

/-- Witness for C9 at a concrete input. -/
theorem C9_termination_witness :
    cf [false] ≤ 5
    ∧ extendDir 1 [dSeg] true 5 [false] [dP]
        = extendDir 1 [dSeg] true (cf [false]) [false] [dP] :=
  ⟨by decide, (C9_termination 1 [dSeg]).1 true 5 [false] [dP] (by decide)⟩

/-- Witness for C10 at a concrete input. -/
theorem C10_paths_have_two_points_witness :
    [((0 : ℚ), (0 : ℚ)), ((1 : ℚ), (0 : ℚ))]
        ∈ _connect_segments_fast [(((0 : ℚ), (0 : ℚ)), ((1 : ℚ), (0 : ℚ)))] 1
    ∧ 2 ≤ ([((0 : ℚ), (0 : ℚ)), ((1 : ℚ), (0 : ℚ))] : List Point).length :=
  ⟨by decide,
    C10_paths_have_two_points [(((0 : ℚ), (0 : ℚ)), ((1 : ℚ), (0 : ℚ)))] 1 _ (by decide)⟩

/-! ### Polygon claims -/

/-- Claim C8: a polygon with fewer than 3 vertices classifies every point
as outside: the result is the all-false list of the same length as the
query batch, and an empty batch yields the empty list. -/
theorem C8_degenerate_polygon (points polygon : List Point)
    (h : polygon.length < 3) :
    points_in_polygon points polygon = points.map (fun _ => false)
    ∧ (points_in_polygon points polygon).length = points.length
    ∧ (∀ b ∈ points_in_polygon points polygon, b = false)
    ∧ (points = [] → points_in_polygon points polygon = []) := by
  have he : points_in_polygon points polygon = points.map fun _ => false := by
    rw [points_in_polygon, if_pos h]
  refine ⟨he, ?_, ?_, ?_⟩
  · rw [he, List.length_map]
  · intro b hb
    rw [he] at hb
    obtain ⟨a, _, hba⟩ := List.mem_map.mp hb
    exact hba.symm
  · intro hp
    subst hp
    rw [he]
    rfl

/-- Witness for C8 at a concrete input. -/
theorem C8_degenerate_polygon_witness :
    ([((0 : ℚ), (0 : ℚ)), ((1 : ℚ), (1 : ℚ))] : List Point).length < 3
    ∧ (points_in_polygon [((5 : ℚ), (5 : ℚ))] [((0 : ℚ), (0 : ℚ)), ((1 : ℚ), (1 : ℚ))]
        = ([((5 : ℚ), (5 : ℚ))] : List Point).map (fun _ => false)
      ∧ (points_in_polygon [((5 : ℚ), (5 : ℚ))] [((0 : ℚ), (0 : ℚ)), ((1 : ℚ), (1 : ℚ))]).length
          = ([((5 : ℚ), (5 : ℚ))] : List Point).length
      ∧ (∀ b ∈ points_in_polygon [((5 : ℚ), (5 : ℚ))] [((0 : ℚ), (0 : ℚ)), ((1 : ℚ), (1 : ℚ))],
          b = false)
      ∧ (([((5 : ℚ), (5 : ℚ))] : List Point) = [] →
          points_in_polygon [((5 : ℚ), (5 : ℚ))] [((0 : ℚ), (0 : ℚ)), ((1 : ℚ), (1 : ℚ))] = [])) :=
  ⟨by decide,
    C8_degenerate_polygon [((5 : ℚ), (5 : ℚ))] [((0 : ℚ), (0 : ℚ)), ((1 : ℚ), (1 : ℚ))] (by decide)⟩

theorem crossingB_eq_specCrossingB (p : Point) (e : Point × Point) :
    crossingB p e = specCrossingB p e := by
  unfold crossingB specCrossingB
  by_cases hy : e.2.2 - e.1.2 = 0
  · have heq : e.1.2 = e.2.2 := by linarith
    simp [hy, heq]
  · have hne : e.1.2 ≠ e.2.2 := fun hc => hy (by rw [hc]; ring)
    simp [hy, hne]

/-- Claim C2: for a polygon with at least 3 vertices, `points_in_polygon`
classifies a query point as inside iff the number of edges of the closed
polygon whose y-coordinates strictly straddle the point's y and whose
x-intersection at that y is strictly greater than the point's x is odd;
horizontal edges never contribute a crossing. -/
theorem C2_crossing_rule (points polygon : List Point) (k : ℕ)
    (h3 : 3 ≤ polygon.length) (hk : k < points.length) :
    ((points_in_polygon points polygon).getD k false = true
      ↔ Odd ((polyEdges polygon).countP (specCrossingB (points.getD k dP)))) := by
  have hnl : ¬polygon.length < 3 := by omega
  rw [points_in_polygon, if_neg hnl]
  have hmap : ((points.map fun p =>
        decide ((polyEdges polygon).countP (crossingB p) % 2 = 1)).getD k false)
      = decide ((polyEdges polygon).countP (crossingB (points.getD k dP)) % 2 = 1) := by
    rw [List.getD_eq_getElem?_getD, List.getElem?_map, List.getElem?_eq_getElem hk,
      List.getD_eq_getElem?_getD, List.getElem?_eq_getElem hk]
    rfl
  rw [hmap]
  have hcong : crossingB (points.getD k dP) = specCrossingB (points.getD k dP) :=
    funext fun e => crossingB_eq_specCrossingB (points.getD k dP) e
  rw [hcong, decide_eq_true_eq, Nat.odd_iff]

/-- Witness for C2 at a concrete input. -/
theorem C2_crossing_rule_witness :
    3 ≤ ([((0 : ℚ), (0 : ℚ)), (1, 0), (1, 1), (0, 1)] : List Point).length
    ∧ 0 < ([(((1 : ℚ)/2), ((1 : ℚ)/2))] : List Point).length
    ∧ ((points_in_polygon [(((1 : ℚ)/2), ((1 : ℚ)/2))]
          [((0 : ℚ), (0 : ℚ)), (1, 0), (1, 1), (0, 1)]).getD 0 false = true
        ↔ Odd ((polyEdges [((0 : ℚ), (0 : ℚ)), (1, 0), (1, 1), (0, 1)]).countP
            (specCrossingB (([(((1 : ℚ)/2), ((1 : ℚ)/2))] : List Point).getD 0 dP)))) :=
  ⟨by decide, by decide,
    C2_crossing_rule [(((1 : ℚ)/2), ((1 : ℚ)/2))]
      [((0 : ℚ), (0 : ℚ)), (1, 0), (1, 1), (0, 1)] 0 (by decide) (by decide)⟩

/-! ### Contour claims: shapes, NaN, interpolation -/

theorem find_contours_no_error (x y : List ℚ) (z : List (List Val)) (level : ℚ)
    (hx : x.length = nxOf z) (hy : y.length = nyOf z) :
    ∃ paths, find_contours x y z level = .ok paths := by
  have hnot : ¬(x.length ≠ nxOf z ∨ y.length ≠ nyOf z) := by
    push_neg
    exact ⟨hx, hy⟩
  rw [find_contours, if_neg hnot]
  by_cases hdeg : nyOf z < 2 ∨ nxOf z < 2
  · rw [if_pos hdeg]
    exact ⟨[], rfl⟩
  · rw [if_neg hdeg]
    exact ⟨_, rfl⟩

/-- Claim C4: `find_contours` signals an error exactly when the coordinate
lengths disagree with the grid shape; with matching shapes a degenerate
grid (fewer than 2 samples in either dimension) returns the empty list, and
matching shapes never signal an error. -/
theorem C4_shape_errors (x y : List ℚ) (z : List (List Val)) (level : ℚ) :
    ((∃ msg, find_contours x y z level = .error msg)
      ↔ (x.length ≠ nxOf z ∨ y.length ≠ nyOf z))
    ∧ (x.length = nxOf z → y.length = nyOf z → (nyOf z < 2 ∨ nxOf z < 2) →
        find_contours x y z level = .ok [])
    ∧ (x.length = nxOf z → y.length = nyOf z →
        ∃ paths, find_contours x y z level = .ok paths) := by
  by_cases hcond : x.length ≠ nxOf z ∨ y.length ≠ nyOf z
  · refine ⟨⟨fun _ => hcond, fun _ => ⟨"Shape mismatch", by rw [find_contours, if_pos hcond]⟩⟩,
      ?_, ?_⟩
    · intro hx hy _
      rcases hcond with h | h
      · exact absurd hx h
      · exact absurd hy h
    · intro hx hy
      rcases hcond with h | h
      · exact absurd hx h
      · exact absurd hy h
  · push_neg at hcond
    obtain ⟨hx, hy⟩ := hcond
    have hnot : ¬(x.length ≠ nxOf z ∨ y.length ≠ nyOf z) := by
      push_neg
      exact ⟨hx, hy⟩
    refine ⟨⟨?_, ?_⟩, ?_, ?_⟩
    · rintro ⟨msg, hmsg⟩
      rw [find_contours, if_neg hnot] at hmsg
      by_cases hdeg : nyOf z < 2 ∨ nxOf z < 2
      · rw [if_pos hdeg] at hmsg
        exact Except.noConfusion hmsg
      · rw [if_neg hdeg] at hmsg
        exact Except.noConfusion hmsg
    · intro hor
      rcases hor with h | h
      · exact absurd hx h
      · exact absurd hy h
    · intro _ _ hdeg
      rw [find_contours, if_neg hnot, if_pos hdeg]
    · intro _ _
      exact find_contours_no_error x y z level hx hy

/-- Witness for C4 at a concrete input (a 1x1 grid: shapes match, the grid
is degenerate, so the empty list is returned without error). -/
theorem C4_shape_errors_witness :
    ([(0 : ℚ)].length = nxOf [[Val.num 0]]
      ∧ [(0 : ℚ)].length = nyOf [[Val.num 0]]
      ∧ (nyOf [[Val.num 0]] < 2 ∨ nxOf [[Val.num 0]] < 2))
    ∧ find_contours [(0 : ℚ)] [(0 : ℚ)] [[Val.num 0]] 0 = .ok [] :=
  ⟨⟨by decide, by decide, by decide⟩,
    (C4_shape_errors [(0 : ℚ)] [(0 : ℚ)] [[Val.num 0]] 0).2.1 (by decide) (by decide) (by decide)⟩

/-- Claim C5: a cell with a NaN corner is excluded from every case bucket,
so it contributes no segment; a cell's selection and corner values depend
only on its own four corner samples (so NaN elsewhere leaves it unchanged);
and a NaN never causes `find_contours` to signal an error when the shapes
match. -/
theorem C5_nan_cells (ny nx : ℕ) (z z' : List (List Val)) (level : ℚ) (i j c : ℕ) :
    ((isnanV (getV z i j) = true ∨ isnanV (getV z i (j + 1)) = true
        ∨ isnanV (getV z (i + 1) (j + 1)) = true ∨ isnanV (getV z (i + 1) j) = true) →
      (i, j) ∉ cellsOfCase ny nx z level c)
    ∧ (getV z i j = getV z' i j → getV z i (j + 1) = getV z' i (j + 1) →
        getV z (i + 1) (j + 1) = getV z' (i + 1) (j + 1) →
        getV z (i + 1) j = getV z' (i + 1) j →
        (((i, j) ∈ cellsOfCase ny nx z level c ↔ (i, j) ∈ cellsOfCase ny nx z' level c)
          ∧ cornerVals z i j = cornerVals z' i j))
    ∧ (∀ (x y : List ℚ), x.length = nxOf z → y.length = nyOf z →
        ∃ paths, find_contours x y z level = .ok paths) := by
  refine ⟨?_, ?_, ?_⟩
  · intro hnan hmem
    have hpred := (List.mem_filter.mp hmem).2
    simp only [validCell] at hpred
    rcases hnan with h | h | h | h <;>
      simp [h] at hpred
  · intro h1 h2 h3 h4
    have hv : validCell z i j = validCell z' i j := by
      rw [validCell, validCell, h1, h2, h3, h4]
    have hcase : caseIndexAt z level i j = caseIndexAt z' level i j := by
      rw [caseIndexAt, caseIndexAt, h1, h2, h3, h4]
    constructor
    · simp only [cellsOfCase, List.mem_filter]
      rw [hv, hcase]
    · rw [cornerVals, cornerVals, h1, h2, h3, h4]
  · intro x y hx hy
    exact find_contours_no_error x y z level hx hy

/-- Witness for C5 at a concrete input (NaN at the top-right corner of the
only cell of a 2x2 grid excludes that cell from case 1). -/
theorem C5_nan_cells_witness :
    (isnanV (getV [[Val.num 0, Val.num 0], [Val.num 0, Val.nan]] 0 0) = true
      ∨ isnanV (getV [[Val.num 0, Val.num 0], [Val.num 0, Val.nan]] 0 (0 + 1)) = true
      ∨ isnanV (getV [[Val.num 0, Val.num 0], [Val.num 0, Val.nan]] (0 + 1) (0 + 1)) = true
      ∨ isnanV (getV [[Val.num 0, Val.num 0], [Val.num 0, Val.nan]] (0 + 1) 0) = true)
    ∧ (0, 0) ∉ cellsOfCase 2 2 [[Val.num 0, Val.num 0], [Val.num 0, Val.nan]] 0 1 :=
  ⟨by decide,
    (C5_nan_cells 2 2 [[Val.num 0, Val.num 0], [Val.num 0, Val.nan]]
      [[Val.num 0, Val.num 0], [Val.num 0, Val.nan]] 0 0 0 1).1 (by decide)⟩

/-- Spec-side corner coordinates of cell `(i, j)`: corner 0 = bottom-left
`(x[j], y[i])`, 1 = bottom-right, 2 = top-right, 3 = top-left. -/
def cornerPt (x y : List ℚ) (i j k : ℕ) : Point :=
  if k = 0 then (x.getD j 0, y.getD i 0)
  else if k = 1 then (x.getD (j + 1) 0, y.getD i 0)
  else if k = 2 then (x.getD (j + 1) 0, y.getD (i + 1) 0)
  else (x.getD j 0, y.getD (i + 1) 0)

/-- Spec-side corner value selector. -/
def cornerVal (v0 v1 v2 v3 : ℚ) (k : ℕ) : ℚ :=
  if k = 0 then v0 else if k = 1 then v1 else if k = 2 then v2 else v3

/-- The interpolation parameter as the specification states it:
`t = (level - va) / (vb - va)`, defaulted to `1/2` when `|vb - va| < 1e-10`. -/
def tSpec (level va vb : ℚ) : ℚ :=
  if |vb - va| < 1 / 10 ^ 10 then 1 / 2 else (level - va) / (vb - va)

/-- Claim C6: for every edge `e < 4`, the crossing point emitted by
`interp_edge` is `p_a + t * (p_b - p_a)` componentwise, where `p_a`, `p_b`
are the physical coordinates of corners `e` and `(e+1) % 4`, `v_a`, `v_b`
their corner values, and `t = (level - v_a) / (v_b - v_a)` unless
`|v_b - v_a| < 1e-10`, in which case `t = 1/2` and the near-zero
denominator is never used. -/
theorem C6_edge_interpolation (x y : List ℚ) (level v0 v1 v2 v3 : ℚ) (i j e : ℕ)
    (he : e < 4) :
    (interpEdge x y level v0 v1 v2 v3 i j e
      = ((cornerPt x y i j e).1
            + tSpec level (cornerVal v0 v1 v2 v3 e) (cornerVal v0 v1 v2 v3 ((e + 1) % 4))
              * ((cornerPt x y i j ((e + 1) % 4)).1 - (cornerPt x y i j e).1),
         (cornerPt x y i j e).2
            + tSpec level (cornerVal v0 v1 v2 v3 e) (cornerVal v0 v1 v2 v3 ((e + 1) % 4))
              * ((cornerPt x y i j ((e + 1) % 4)).2 - (cornerPt x y i j e).2)))
    ∧ (|cornerVal v0 v1 v2 v3 ((e + 1) % 4) - cornerVal v0 v1 v2 v3 e| < 1 / 10 ^ 10 →
        tSpec level (cornerVal v0 v1 v2 v3 e) (cornerVal v0 v1 v2 v3 ((e + 1) % 4)) = 1 / 2)
    ∧ (1 / 10 ^ 10 ≤ |cornerVal v0 v1 v2 v3 ((e + 1) % 4) - cornerVal v0 v1 v2 v3 e| →
        tSpec level (cornerVal v0 v1 v2 v3 e) (cornerVal v0 v1 v2 v3 ((e + 1) % 4))
          = (level - cornerVal v0 v1 v2 v3 e)
            / (cornerVal v0 v1 v2 v3 ((e + 1) % 4) - cornerVal v0 v1 v2 v3 e)) := by
  have he4 : e = 0 ∨ e = 1 ∨ e = 2 ∨ e = 3 := by omega
  refine ⟨?_, ?_, ?_⟩
  · rcases he4 with rfl | rfl | rfl | rfl <;>
      simp [interpEdge, interpFrom, cornerPt, cornerVal, tSpec]
  · intro hlt
    rw [tSpec, if_pos hlt]
  · intro hge
    rw [tSpec, if_neg (not_lt.mpr hge)]

/-! ### Case-index and edge-table claims -/

theorem b2n_le_one (b : Bool) : b2n b ≤ 1 := by cases b <;> decide

theorem caseIndexAt_lt_16 (z : List (List Val)) (level : ℚ) (i j : ℕ) :
    caseIndexAt z level i j < 16 := by
  have h0 := b2n_le_one (vge (getV z i j) level)
  have h1 := b2n_le_one (vge (getV z i (j + 1)) level)
  have h2 := b2n_le_one (vge (getV z (i + 1) (j + 1)) level)
  have h3 := b2n_le_one (vge (getV z (i + 1) j) level)
  rw [caseIndexAt]
  omega

theorem bits_testBit (b0 b1 b2 b3 : Bool) :
    (b2n b0 + 2 * b2n b1 + 4 * b2n b2 + 8 * b2n b3).testBit 0 = b0
    ∧ (b2n b0 + 2 * b2n b1 + 4 * b2n b2 + 8 * b2n b3).testBit 1 = b1
    ∧ (b2n b0 + 2 * b2n b1 + 4 * b2n b2 + 8 * b2n b3).testBit 2 = b2
    ∧ (b2n b0 + 2 * b2n b1 + 4 * b2n b2 + 8 * b2n b3).testBit 3 = b3 := by
  cases b0 <;> cases b1 <;> cases b2 <;> cases b3 <;> decide

theorem list_sum_map_add {α : Type} (l : List α) (f g : α → ℕ) :
    (l.map (fun a => f a + g a)).sum = (l.map f).sum + (l.map g).sum := by
  induction l with
  | nil => rfl
  | cons a t ih =>
    simp only [List.map_cons, List.sum_cons]
    omega

theorem sum_delta_ge (f : ℕ → ℕ) (k n : ℕ) (h : n ≤ k) :
    ((List.range n).map (fun c => f c * (if k == c then 1 else 0))).sum = 0 := by
  induction n with
  | zero => rfl
  | succ m ih =>
    rw [List.range_succ, List.map_append, List.sum_append, ih (by omega)]
    have hne : (k == m) = false := by
      simp only [beq_eq_false_iff_ne, ne_eq]
      omega
    simp only [List.map_cons, List.map_nil, List.sum_cons, List.sum_nil, hne]
    simp

theorem sum_delta_lt (f : ℕ → ℕ) (k n : ℕ) (h : k < n) :
    ((List.range n).map (fun c => f c * (if k == c then 1 else 0))).sum = f k := by
  induction n with
  | zero => exact absurd h (Nat.not_lt_zero k)
  | succ m ih =>
    rw [List.range_succ, List.map_append, List.sum_append]
    by_cases hk : k = m
    · subst hk
      rw [sum_delta_ge f k k (le_refl k)]
      simp
    · rw [ih (by omega)]
      have hne : (k == m) = false := by
        simp only [beq_eq_false_iff_ne, ne_eq]
        exact hk
      simp only [List.map_cons, List.map_nil, List.sum_cons, List.sum_nil, hne]
      simp

theorem sum_mul_countP (l : List (ℕ × ℕ)) (g : ℕ × ℕ → ℕ) (f : ℕ → ℕ) (n : ℕ)
    (hg : ∀ p ∈ l, g p < n) :
    ((List.range n).map (fun c => f c * l.countP (fun p => g p == c))).sum
      = (l.map (fun p => f (g p))).sum := by
  induction l with
  | nil => simp
  | cons a t ih =>
    have ha := hg a (List.mem_cons_self a t)
    have ih2 := ih fun p hp => hg p (List.mem_cons_of_mem a hp)
    have hsplit :
        ((List.range n).map (fun c => f c * (a :: t).countP (fun p => g p == c))).sum
          = ((List.range n).map (fun c => f c * t.countP (fun p => g p == c))).sum
            + ((List.range n).map (fun c => f c * (if g a == c then 1 else 0))).sum := by
      rw [← list_sum_map_add]
      refine congrArg List.sum (List.map_congr_left fun c _ => ?_)
      rw [List.countP_cons]
      ring
    rw [hsplit, ih2, sum_delta_lt f (g a) n ha]
    simp only [List.map_cons, List.sum_cons]
    omega

theorem length_flatMap_const {α β : Type} (l : List α) (f : α → List β) (k : ℕ)
    (h : ∀ a ∈ l, (f a).length = k) : (l.flatMap f).length = l.length * k := by
  induction l with
  | nil => simp
  | cons a t ih =>
    rw [List.flatMap_cons, List.length_append, h a (List.mem_cons_self a t),
      ih fun b hb => h b (List.mem_cons_of_mem a hb), List.length_cons]
    ring

theorem length_flatMap_sum {α β : Type} (l : List α) (f : α → List β) (g : α → ℕ)
    (h : ∀ a ∈ l, (f a).length = g a) : (l.flatMap f).length = (l.map g).sum := by
  induction l with
  | nil => rfl
  | cons a t ih =>
    rw [List.flatMap_cons, List.length_append, h a (List.mem_cons_self a t),
      ih fun b hb => h b (List.mem_cons_of_mem a hb), List.map_cons, List.sum_cons]

theorem cellsOfCase_length (ny nx : ℕ) (z : List (List Val)) (level : ℚ) (c : ℕ) :
    (cellsOfCase ny nx z level c).length
      = ((cellList ny nx).filter (fun ij => validCell z ij.1 ij.2)).countP
          (fun ij => caseIndexAt z level ij.1 ij.2 == c) := by
  rw [cellsOfCase, List.countP_filter, ← List.countP_eq_length_filter]
  refine List.countP_congr fun a _ => ?_
  rw [Bool.and_comm]

theorem allSegments_length (x y : List ℚ) (z : List (List Val)) (level : ℚ) :
    (allSegments x y z level).length
      = (((cellList (nyOf z) (nxOf z)).filter (fun ij => validCell z ij.1 ij.2)).map
          (fun ij => (_EDGE_TABLE (caseIndexAt z level ij.1 ij.2)).length)).sum := by
  have hstep1 : (allSegments x y z level).length
      = ((List.range' 1 14).map fun c =>
          (_EDGE_TABLE c).length * (cellsOfCase (nyOf z) (nxOf z) z level c).length).sum := by
    rw [allSegments]
    refine length_flatMap_sum _ _ _ fun c _ => ?_
    exact length_flatMap_const _ _ _ fun pr _ => List.length_map _ _
  have hext : ((List.range' 1 14).map fun c =>
        (_EDGE_TABLE c).length * (cellsOfCase (nyOf z) (nxOf z) z level c).length).sum
      = ((List.range 16).map fun c =>
        (_EDGE_TABLE c).length * (cellsOfCase (nyOf z) (nxOf z) z level c).length).sum := by
    rw [show List.range 16 = 0 :: (List.range' 1 14 ++ [15]) from rfl]
    rw [List.map_cons, List.map_append, List.sum_cons, List.sum_append]
    simp [_EDGE_TABLE]
  have hcount : ((List.range 16).map fun c =>
        (_EDGE_TABLE c).length * (cellsOfCase (nyOf z) (nxOf z) z level c).length).sum
      = ((List.range 16).map fun c =>
        (_EDGE_TABLE c).length
          * ((cellList (nyOf z) (nxOf z)).filter
              (fun ij => validCell z ij.1 ij.2)).countP
            (fun ij => caseIndexAt z level ij.1 ij.2 == c)).sum := by
    refine congrArg List.sum (List.map_congr_left fun c _ => ?_)
    rw [cellsOfCase_length]
  rw [hstep1, hext, hcount]
  exact sum_mul_countP _ (fun ij => caseIndexAt z level ij.1 ij.2)
    (fun c => (_EDGE_TABLE c).length) 16
    (fun p _ => caseIndexAt_lt_16 z level p.1 p.2)

/-- Claim C3: bit k of the 4-bit case index is set iff corner k satisfies
`value >= level` (corner 0 = bottom-left, weight 1; 1 = bottom-right,
weight 2; 2 = top-right, weight 4; 3 = top-left, weight 8); cases 0 and 15
produce no segments; every other case produces one or two segments per the
fixed edge table, the saddle cases 5 and 10 producing exactly the two
parallel pairs (3,0),(1,2) and (0,1),(2,3); and the number of emitted
segments is exactly the sum over valid cells of the table entry count at
the cell's case. -/
theorem C3_case_table (z : List (List Val)) (level : ℚ) (i j : ℕ) :
    ((caseIndexAt z level i j).testBit 0 = vge (getV z i j) level
      ∧ (caseIndexAt z level i j).testBit 1 = vge (getV z i (j + 1)) level
      ∧ (caseIndexAt z level i j).testBit 2 = vge (getV z (i + 1) (j + 1)) level
      ∧ (caseIndexAt z level i j).testBit 3 = vge (getV z (i + 1) j) level)
    ∧ (_EDGE_TABLE 0 = [] ∧ _EDGE_TABLE 15 = [])
    ∧ (_EDGE_TABLE 5 = [(3, 0), (1, 2)] ∧ _EDGE_TABLE 10 = [(0, 1), (2, 3)])
    ∧ (∀ c, 0 < c → c < 15 →
        (_EDGE_TABLE c).length = 1 ∨ (_EDGE_TABLE c).length = 2)
    ∧ (∀ (x y : List ℚ),
        (allSegments x y z level).length
          = (((cellList (nyOf z) (nxOf z)).filter (fun ij => validCell z ij.1 ij.2)).map
              (fun ij => (_EDGE_TABLE (caseIndexAt z level ij.1 ij.2)).length)).sum) := by
  refine ⟨?_, ⟨rfl, rfl⟩, ⟨rfl, rfl⟩, ?_, fun x y => allSegments_length x y z level⟩
  · have hb := bits_testBit (vge (getV z i j) level) (vge (getV z i (j + 1)) level)
      (vge (getV z (i + 1) (j + 1)) level) (vge (getV z (i + 1) j) level)
    simp only [caseIndexAt]
    exact hb
  · intro c h0 h15
    have hc : c = 1 ∨ c = 2 ∨ c = 3 ∨ c = 4 ∨ c = 5 ∨ c = 6 ∨ c = 7 ∨ c = 8
        ∨ c = 9 ∨ c = 10 ∨ c = 11 ∨ c = 12 ∨ c = 13 ∨ c = 14 := by omega
    rcases hc with rfl | rfl | rfl | rfl | rfl | rfl | rfl | rfl | rfl | rfl | rfl | rfl | rfl | rfl <;>
      decide

/-- Witness for C3 at a concrete input. -/
theorem C3_case_table_witness :
    ((0 : ℕ) < 7 ∧ (7 : ℕ) < 15)
    ∧ ((_EDGE_TABLE 7).length = 1 ∨ (_EDGE_TABLE 7).length = 2) :=
  ⟨⟨by decide, by decide⟩, (C3_case_table [] 0 0 0).2.2.2.1 7 (by decide) (by decide)⟩

/-- Witness for C6 at a concrete input. -/
theorem C6_edge_interpolation_witness :
    (1 : ℕ) < 4
    ∧ interpEdge [(0 : ℚ), 1] [(0 : ℚ), 1] 0 2 4 6 8 0 0 1
        = ((cornerPt [(0 : ℚ), 1] [(0 : ℚ), 1] 0 0 1).1
             + tSpec 0 (cornerVal 2 4 6 8 1) (cornerVal 2 4 6 8 ((1 + 1) % 4))
               * ((cornerPt [(0 : ℚ), 1] [(0 : ℚ), 1] 0 0 ((1 + 1) % 4)).1
                   - (cornerPt [(0 : ℚ), 1] [(0 : ℚ), 1] 0 0 1).1),
           (cornerPt [(0 : ℚ), 1] [(0 : ℚ), 1] 0 0 1).2
             + tSpec 0 (cornerVal 2 4 6 8 1) (cornerVal 2 4 6 8 ((1 + 1) % 4))
               * ((cornerPt [(0 : ℚ), 1] [(0 : ℚ), 1] 0 0 ((1 + 1) % 4)).2
                   - (cornerPt [(0 : ℚ), 1] [(0 : ℚ), 1] 0 0 1).2)) :=
  ⟨by decide, (C6_edge_interpolation [(0 : ℚ), 1] [(0 : ℚ), 1] 0 2 4 6 8 0 0 1 (by decide)).1⟩

/-! ### Scaling (claim C7) -/

/-- Scale a point by a constant. -/
def scaleP (c : ℚ) (p : Point) : Point := (c * p.1, c * p.2)

/-- Scale a segment by a constant. -/
def scaleSeg (c : ℚ) (s : Seg) : Seg := (scaleP c s.1, scaleP c s.2)

theorem scaleP_dP (c : ℚ) : scaleP c dP = dP := by
  simp [scaleP, dP]

theorem scaleSeg_dSeg (c : ℚ) : scaleSeg c dSeg = dSeg := by
  simp [scaleSeg, scaleP_dP, dSeg]

theorem headD_map_fix {α : Type} (f : α → α) (l : List α) (d : α) (hd : f d = d) :
    (l.map f).headD d = f (l.headD d) := by
  cases l with
  | nil => simp [hd]
  | cons a t => rfl

theorem getLastD_map_fix {α : Type} (f : α → α) (l : List α) (d : α) (hd : f d = d) :
    (l.map f).getLastD d = f (l.getLastD d) := by
  induction l generalizing d with
  | nil => simp [hd]
  | cons a t ih =>
    cases t with
    | nil => rfl
    | cons b u =>
      simp only [List.map_cons, List.getLastD_cons]
      simp [ih d hd]

theorem crossingB_scale (c : ℚ) (hc : 0 < c) (p : Point) (e : Point × Point) :
    crossingB (scaleP c p) (scaleP c e.1, scaleP c e.2) = crossingB p e := by
  obtain ⟨px, py⟩ := p
  obtain ⟨⟨x1, y1⟩, ⟨x2, y2⟩⟩ := e
  simp only [crossingB, scaleP]
  have hgt1 : decide (c * y1 > c * py) = decide (y1 > py) :=
    decide_eq_decide.mpr (by exact mul_lt_mul_left hc)
  have hgt2 : decide (c * y2 > c * py) = decide (y2 > py) :=
    decide_eq_decide.mpr (by exact mul_lt_mul_left hc)
  have hne : decide (c * y1 ≠ c * y2) = decide (y1 ≠ y2) :=
    decide_eq_decide.mpr (by
      constructor
      · intro h hcon
        exact h (by rw [hcon])
      · intro h hcon
        exact h (mul_left_cancel₀ hc.ne' hcon))
  by_cases hy : y2 - y1 = 0
  · have heq : y1 = y2 := by linarith
    subst heq
    simp [hgt1]
  · have hy' : c * y2 - c * y1 ≠ 0 := by
      intro hcon
      apply hy
      have : c * (y2 - y1) = 0 := by linarith [hcon]
      rcases mul_eq_zero.mp this with h | h
      · exact absurd h hc.ne'
      · exact h
    rw [if_neg hy', if_neg hy]
    have hxint : c * x1 + (c * py - c * y1) * (c * x2 - c * x1) / (c * y2 - c * y1)
        = c * (x1 + (py - y1) * (x2 - x1) / (y2 - y1)) := by
      field_simp
      ring
    rw [hxint]
    have hlt : decide (c * px < c * (x1 + (py - y1) * (x2 - x1) / (y2 - y1)))
        = decide (px < x1 + (py - y1) * (x2 - x1) / (y2 - y1)) :=
      decide_eq_decide.mpr (by exact mul_lt_mul_left hc)
    rw [hgt1, hgt2, hne, hlt]

theorem closePolygon_scale (c : ℚ) (poly : List Point)
    (hagree : allcloseP (scaleP c (poly.headD dP)) (scaleP c (poly.getLastD dP))
      = allcloseP (poly.headD dP) (poly.getLastD dP)) :
    closePolygon (poly.map (scaleP c)) = (closePolygon poly).map (scaleP c) := by
  rw [closePolygon, closePolygon,
    headD_map_fix (scaleP c) poly dP (scaleP_dP c),
    getLastD_map_fix (scaleP c) poly dP (scaleP_dP c), hagree]
  by_cases h : allcloseP (poly.headD dP) (poly.getLastD dP) = true
  · rw [if_pos h, if_pos h]
  · rw [if_neg h, if_neg h, List.map_append, List.map_cons, List.map_nil]

theorem polyEdges_scale (c : ℚ) (poly : List Point)
    (hagree : allcloseP (scaleP c (poly.headD dP)) (scaleP c (poly.getLastD dP))
      = allcloseP (poly.headD dP) (poly.getLastD dP)) :
    polyEdges (poly.map (scaleP c))
      = (polyEdges poly).map (fun e => (scaleP c e.1, scaleP c e.2)) := by
  rw [polyEdges, polyEdges, closePolygon_scale c poly hagree]
  rw [show ((closePolygon poly).map (scaleP c)).tail
      = (closePolygon poly).tail.map (scaleP c) from (List.map_tail ..).symm]
  rw [List.zip_map]
  exact List.map_congr_left fun e _ => rfl

theorem points_in_polygon_scale (c : ℚ) (hc : 0 < c) (pts poly : List Point)
    (hagree : allcloseP (scaleP c (poly.headD dP)) (scaleP c (poly.getLastD dP))
      = allcloseP (poly.headD dP) (poly.getLastD dP)) :
    points_in_polygon (pts.map (scaleP c)) (poly.map (scaleP c))
      = points_in_polygon pts poly := by
  rw [points_in_polygon, points_in_polygon, List.length_map]
  by_cases hlen : poly.length < 3
  · rw [if_pos hlen, if_pos hlen, List.map_map]
    rfl
  · rw [if_neg hlen, if_neg hlen, List.map_map]
    refine List.map_congr_left fun p _ => ?_
    simp only [Function.comp]
    rw [polyEdges_scale c poly hagree, List.countP_map]
    have hcnt : (polyEdges poly).countP
          ((crossingB (scaleP c p)) ∘ fun e => (scaleP c e.1, scaleP c e.2))
        = (polyEdges poly).countP (crossingB p) := by
      refine List.countP_congr fun e _ => ?_
      simp only [Function.comp]
      rw [crossingB_scale c hc p e]
    rw [hcnt]

theorem getD_map_mul (c : ℚ) (l : List ℚ) (k : ℕ) :
    (l.map (fun a => c * a)).getD k 0 = c * l.getD k 0 := by
  induction l generalizing k with
  | nil => simp
  | cons a t ih =>
    cases k with
    | zero => simp
    | succ m =>
      simp only [List.map_cons, List.getD_cons_succ]
      exact ih m

theorem interpFrom_scale (c : ℚ) (level va vb xa xb ya yb : ℚ) :
    interpFrom level va vb (c * xa) (c * xb) (c * ya) (c * yb)
      = scaleP c (interpFrom level va vb xa xb ya yb) := by
  simp only [interpFrom, scaleP, Prod.mk.injEq]
  constructor <;> ring

theorem interpEdge_scale (c : ℚ) (x y : List ℚ) (level v0 v1 v2 v3 : ℚ) (i j e : ℕ) :
    interpEdge (x.map fun a => c * a) (y.map fun a => c * a) level v0 v1 v2 v3 i j e
      = scaleP c (interpEdge x y level v0 v1 v2 v3 i j e) := by
  simp only [interpEdge, getD_map_mul]
  by_cases h0 : e = 0
  · rw [if_pos h0, if_pos h0, interpFrom_scale]
  · rw [if_neg h0, if_neg h0]
    by_cases h1 : e = 1
    · rw [if_pos h1, if_pos h1, interpFrom_scale]
    · rw [if_neg h1, if_neg h1]
      by_cases h2 : e = 2
      · rw [if_pos h2, if_pos h2, interpFrom_scale]
      · rw [if_neg h2, if_neg h2, interpFrom_scale]

theorem flatMap_congr_left {α β : Type} (l : List α) (f g : α → List β)
    (h : ∀ a ∈ l, f a = g a) : l.flatMap f = l.flatMap g := by
  induction l with
  | nil => rfl
  | cons a t ih =>
    rw [List.flatMap_cons, List.flatMap_cons, h a (List.mem_cons_self a t),
      ih fun b hb => h b (List.mem_cons_of_mem a hb)]

theorem allSegments_scale (c : ℚ) (x y : List ℚ) (z : List (List Val)) (level : ℚ) :
    allSegments (x.map fun a => c * a) (y.map fun a => c * a) z level
      = (allSegments x y z level).map (scaleSeg c) := by
  rw [allSegments, allSegments, List.map_flatMap]
  refine flatMap_congr_left _ _ _ fun cs _ => ?_
  rw [List.map_flatMap]
  refine flatMap_congr_left _ _ _ fun pr _ => ?_
  rw [List.map_map]
  refine List.map_congr_left fun ij _ => ?_
  simp only [Function.comp]
  obtain ⟨v0, v1, v2, v3⟩ := cornerVals z ij.1 ij.2
  simp only [scaleSeg]
  rw [interpEdge_scale, interpEdge_scale]

theorem quantize_scale (c tol : ℚ) (hc : c ≠ 0) (p : Point) :
    quantize (c * tol) (scaleP c p) = quantize tol p := by
  simp only [quantize, scaleP]
  rw [mul_div_mul_left p.1 tol hc, mul_div_mul_left p.2 tol hc]

theorem getD_map_seg (c : ℚ) (segs : List Seg) (i : ℕ) :
    (segs.map (scaleSeg c)).getD i dSeg = scaleSeg c (segs.getD i dSeg) := by
  induction segs generalizing i with
  | nil => simp [scaleSeg_dSeg]
  | cons a t ih =>
    cases i with
    | zero => simp
    | succ m =>
      simp only [List.map_cons, List.getD_cons_succ]
      exact ih m

theorem adjacency_scale (c tol : ℚ) (hc : c ≠ 0) (segs : List Seg) (q : ℤ × ℤ) :
    adjacency (c * tol) (segs.map (scaleSeg c)) q = adjacency tol segs q := by
  rw [adjacency, adjacency, List.length_map]
  refine flatMap_congr_left _ _ _ fun i _ => ?_
  rw [getD_map_seg]
  simp only [scaleSeg, quantize_scale c tol hc]

theorem extendDir_scale (c tol : ℚ) (hc : c ≠ 0) (segs : List Seg) :
    ∀ (dir : Bool) (fuel : ℕ) (used : List Bool) (path : List Point),
      extendDir (c * tol) (segs.map (scaleSeg c)) dir fuel used (path.map (scaleP c))
        = ((extendDir tol segs dir fuel used path).1,
            (extendDir tol segs dir fuel used path).2.map (scaleP c)) := by
  intro dir fuel
  induction fuel with
  | zero => intro used path; rfl
  | succ n ih =>
    intro used path
    simp only [extendDir]
    have hend : (if dir then (path.map (scaleP c)).getLastD dP
          else (path.map (scaleP c)).headD dP)
        = scaleP c (if dir then path.getLastD dP else path.headD dP) := by
      cases dir
      · simp only [Bool.false_eq_true, if_false]
        exact headD_map_fix (scaleP c) path dP (scaleP_dP c)
      · simp only [if_true]
        exact getLastD_map_fix (scaleP c) path dP (scaleP_dP c)
    rw [hend, quantize_scale c tol hc, adjacency_scale c tol hc]
    cases hfu : firstUnused used (adjacency tol segs
        (quantize tol (if dir then path.getLastD dP else path.headD dP))) with
    | none => rfl
    | some ie =>
      obtain ⟨i, e⟩ := ie
      dsimp only
      have hnew : (if e then ((segs.map (scaleSeg c)).getD i dSeg).1
            else ((segs.map (scaleSeg c)).getD i dSeg).2)
          = scaleP c (if e then (segs.getD i dSeg).1 else (segs.getD i dSeg).2) := by
        rw [getD_map_seg]
        cases e <;> simp [scaleSeg]
      rw [hnew]
      have hpath : (if dir then path.map (scaleP c)
              ++ [scaleP c (if e then (segs.getD i dSeg).1 else (segs.getD i dSeg).2)]
            else scaleP c (if e then (segs.getD i dSeg).1 else (segs.getD i dSeg).2)
              :: path.map (scaleP c))
          = (if dir then path ++ [if e then (segs.getD i dSeg).1 else (segs.getD i dSeg).2]
            else (if e then (segs.getD i dSeg).1 else (segs.getD i dSeg).2) :: path).map
              (scaleP c) := by
        cases dir <;> simp
      rw [hpath]
      exact ih (used.set i true) _

theorem connectLoop_scale (c tol : ℚ) (hc : c ≠ 0) (segs : List Seg) :
    ∀ (idxs : List ℕ) (used : List Bool),
      connectLoop (c * tol) (segs.map (scaleSeg c)) idxs used
        = ((connectLoop tol segs idxs used).1,
            (connectLoop tol segs idxs used).2.map (List.map (scaleP c))) := by
  intro idxs
  induction idxs with
  | nil => intro used; rfl
  | cons start rest ih =>
    intro used
    cases hh : used.getD start true with
    | true =>
      simp only [connectLoop, hh, if_true]
      exact ih used
    | false =>
      simp only [connectLoop, hh, Bool.false_eq_true, if_false]
      have hpath0 : [((segs.map (scaleSeg c)).getD start dSeg).1,
            ((segs.map (scaleSeg c)).getD start dSeg).2]
          = [(segs.getD start dSeg).1, (segs.getD start dSeg).2].map (scaleP c) := by
        rw [getD_map_seg]
        rfl
      rw [hpath0, extendDir_scale c tol hc segs true]
      dsimp only
      rw [extendDir_scale c tol hc segs false]
      dsimp only
      rw [ih]
      dsimp only
      rw [List.map_cons]

theorem connect_fast_scale (c tol : ℚ) (hc : c ≠ 0) (segs : List Seg) :
    _connect_segments_fast (segs.map (scaleSeg c)) (c * tol)
      = (_connect_segments_fast segs tol).map (List.map (scaleP c)) := by
  cases segs with
  | nil => rfl
  | cons a t =>
    rw [_connect_segments_fast, _connect_segments_fast]
    have h1 : ((a :: t).map (scaleSeg c)).isEmpty = false := rfl
    have h2 : (a :: t).isEmpty = false := rfl
    rw [h1, h2]
    simp only [Bool.false_eq_true, if_false, List.length_map]
    rw [connectLoop_scale c tol hc]

/-- Claim C7 counterexample: scaling every coordinate of the query point and
the polygon by 1000 changes the classification, because the absolute
tolerance `atol = 1e-8` inside `np.allclose` makes the closed-polygon test
scale-dependent: the polygon below is treated as closed at scale 1 (gap
1e-8 in y between first and last vertex) but as open at scale 1000, which
appends a closing edge that adds one more crossing. -/
theorem C7_scaling_counterexample :
    points_in_polygon
        ([((-1 : ℚ), 1 / 2 * (1 / 10 ^ 8))].map (scaleP 1000))
        ([((0 : ℚ), (0 : ℚ)), (1, 0), (1, 1), (0, 1 / 10 ^ 8)].map (scaleP 1000))
      ≠ points_in_polygon [((-1 : ℚ), 1 / 2 * (1 / 10 ^ 8))]
          [((0 : ℚ), (0 : ℚ)), (1, 0), (1, 1), (0, 1 / 10 ^ 8)] := by
  have h1 : points_in_polygon [((-1 : ℚ), 1 / 2 * (1 / 10 ^ 8))]
      [((0 : ℚ), (0 : ℚ)), (1, 0), (1, 1), (0, 1 / 10 ^ 8)] = [true] := by
    norm_num [points_in_polygon, polyEdges, closePolygon, allcloseP, allcloseQ, dP,
      List.countP_cons, crossingB, abs_of_nonneg, abs_of_neg]
  have h2 : points_in_polygon
      ([((-1 : ℚ), 1 / 2 * (1 / 10 ^ 8))].map (scaleP 1000))
      ([((0 : ℚ), (0 : ℚ)), (1, 0), (1, 1), (0, 1 / 10 ^ 8)].map (scaleP 1000)) = [false] := by
    simp only [List.map_cons, List.map_nil, scaleP]
    norm_num [points_in_polygon, polyEdges, closePolygon, allcloseP, allcloseQ, dP,
      List.countP_cons, crossingB, abs_of_nonneg, abs_of_neg]
  rw [h1, h2]
  simp

/-- Claim C7 as amended: for a positive scale factor `c`,
(1) `points_in_polygon` is unchanged by scaling all coordinates whenever
the `np.allclose` closed-polygon test decides the same way for the scaled
and unscaled polygon (the counterexample shows this proviso is necessary:
`allclose` has an absolute tolerance, so the decision is scale-dependent);
(2) the segments generated by the marching-squares stage of `find_contours`
scale by `c` when `xs` and `ys` are scaled by `c`; and
(3) `_connect_segments_fast` maps scaled segments to scaled paths when its
quantization tolerance is scaled alongside (with the fixed tolerance the
endpoint hashing, like `allclose`, is scale-dependent). -/
theorem C7_scaling (c : ℚ) (hc : 0 < c) :
    (∀ (pts poly : List Point),
        allcloseP (scaleP c (poly.headD dP)) (scaleP c (poly.getLastD dP))
            = allcloseP (poly.headD dP) (poly.getLastD dP) →
        points_in_polygon (pts.map (scaleP c)) (poly.map (scaleP c))
          = points_in_polygon pts poly)
    ∧ (∀ (x y : List ℚ) (z : List (List Val)) (level : ℚ),
        allSegments (x.map fun a => c * a) (y.map fun a => c * a) z level
          = (allSegments x y z level).map (scaleSeg c))
    ∧ (∀ (segs : List Seg) (tol : ℚ),
        _connect_segments_fast (segs.map (scaleSeg c)) (c * tol)
          = (_connect_segments_fast segs tol).map (List.map (scaleP c))) :=
  ⟨fun pts poly hagree => points_in_polygon_scale c hc pts poly hagree,
   fun x y z level => allSegments_scale c x y z level,
   fun segs tol => connect_fast_scale c tol hc.ne' segs⟩

/-- Witness for the amended C7 at a concrete input. -/
theorem C7_scaling_witness :
    ((0 : ℚ) < 2
      ∧ allcloseP
          (scaleP 2 (([((0 : ℚ), (0 : ℚ)), (1, 0), (1, 1), (0, 1)] : List Point).headD dP))
          (scaleP 2 (([((0 : ℚ), (0 : ℚ)), (1, 0), (1, 1), (0, 1)] : List Point).getLastD dP))
        = allcloseP (([((0 : ℚ), (0 : ℚ)), (1, 0), (1, 1), (0, 1)] : List Point).headD dP)
            (([((0 : ℚ), (0 : ℚ)), (1, 0), (1, 1), (0, 1)] : List Point).getLastD dP))
    ∧ points_in_polygon ([((5 : ℚ), (5 : ℚ))].map (scaleP 2))
          (([((0 : ℚ), (0 : ℚ)), (1, 0), (1, 1), (0, 1)] : List Point).map (scaleP 2))
        = points_in_polygon [((5 : ℚ), (5 : ℚ))]
            [((0 : ℚ), (0 : ℚ)), (1, 0), (1, 1), (0, 1)] := by
  have hag : allcloseP
        (scaleP 2 (([((0 : ℚ), (0 : ℚ)), (1, 0), (1, 1), (0, 1)] : List Point).headD dP))
        (scaleP 2 (([((0 : ℚ), (0 : ℚ)), (1, 0), (1, 1), (0, 1)] : List Point).getLastD dP))
      = allcloseP (([((0 : ℚ), (0 : ℚ)), (1, 0), (1, 1), (0, 1)] : List Point).headD dP)
          (([((0 : ℚ), (0 : ℚ)), (1, 0), (1, 1), (0, 1)] : List Point).getLastD dP) := by
    norm_num [allcloseP, allcloseQ, scaleP, dP, abs_of_nonneg, abs_of_neg]
  exact ⟨⟨by norm_num, hag⟩,
    (C7_scaling 2 (by norm_num)).1 [((5 : ℚ), (5 : ℚ))]
      [((0 : ℚ), (0 : ℚ)), (1, 0), (1, 1), (0, 1)] hag⟩
